import Mathlib

/-!
Verification of the checkpoint-timer and statistics-aggregation component of
the selenium-practice repository: `tests/time_tracker.py` (class `TimeTracker`
and the thread-local `get_tracker` registry) and
`tests/performance_analyzer.py` (class `PerformanceAnalyzer`).

Clock readings (`time.time()` floats) are modelled as exact rationals;
file-system writes and JSON parses are modelled by their outcomes, supplied
by the environment as `Except` values.
-/

namespace SeleniumPractice

/-! ## Python insertion-ordered dictionaries (`dict`) -/

/-- Python-dict assignment `d[k] = v`: if the key exists its value is replaced
in place (the key keeps its position); otherwise the pair is appended at the
end.  This is the semantics of `self._checkpoints[name] = {...}`. -/
def dictInsert {α : Type} (k : String) (v : α) :
    List (String × α) → List (String × α)
  | [] => [(k, v)]
  | (k0, v0) :: rest =>
      if k0 = k then (k0, v) :: rest else (k0, v0) :: dictInsert k v rest

/-- Python-dict lookup `d[k]` / `d.get(k)`. -/
def dictLookup {α : Type} (k : String) : List (String × α) → Option α
  | [] => none
  | (k0, v0) :: rest => if k0 = k then some v0 else dictLookup k rest

/-- The key list of a dict, in insertion order. -/
def dictKeys {α : Type} (d : List (String × α)) : List String :=
  d.map Prod.fst

/-! ## `tests/time_tracker.py`: class `TimeTracker` -/

/-- One stored checkpoint entry (`TimeTracker._checkpoints[name]`).  The ISO
`timestamp` string also stored by the source is presentational and not
modelled. -/
structure Checkpoint where
  time_since_last : ℚ
  total_elapsed : ℚ
  message : Option String
deriving Repr, DecidableEq

/-- `TimeTracker` state (`__init__`).  `task_id` is fixed at construction
(`_generate_task_id` reads the environment, so it is a parameter here); the
`threading.Lock`, the logger and the `os.makedirs` side effect are not
modelled. -/
structure TimeTracker where
  checkpoints : List (String × Checkpoint)
  start_time : Option ℚ
  last_checkpoint : Option ℚ
  test_name : Option String
  task_id : String
  output_dir : String
deriving Repr, DecidableEq

/-- `TimeTracker(output_dir)`: fresh state. -/
def TimeTracker.init (task_id : String) (output_dir : String) : TimeTracker :=
  ⟨[], none, none, none, task_id, output_dir⟩

/-- `TimeTracker.start(test_name)` with `time.time()` reading `now`:
resets the checkpoint dict, sets `_start_time = now` and
`_last_checkpoint = now`. -/
def TimeTracker.start (t : TimeTracker) (now : ℚ) (test_name : Option String) :
    TimeTracker :=
  { t with
      start_time := some now
      last_checkpoint := some now
      checkpoints := []
      test_name := some (test_name.getD "unknown_test") }

/-- `TimeTracker.checkpoint(name, message)` with `time.time()` reading `now`.
When the tracker is not started the source first calls `self.start()`; the
clock reading inside that `start` and the subsequent `current_time` reading
are modelled as the same instant `now`.  Returns the updated tracker and the
value returned to the caller (`time_since_last`).  The `.getD now` defaults
are dead code: after the guard `start_time` and `last_checkpoint` are always
set. -/
def TimeTracker.checkpoint (t0 : TimeTracker) (now : ℚ) (name : String)
    (message : Option String) : TimeTracker × ℚ :=
  let t := if t0.start_time = none then t0.start now none else t0
  let s := t.start_time.getD now
  let l := t.last_checkpoint.getD now
  let time_since_last := now - l
  let total_elapsed := now - s
  let cp : Checkpoint := ⟨time_since_last, total_elapsed, message⟩
  ({ t with
      checkpoints := dictInsert name cp t.checkpoints
      last_checkpoint := some now },
   time_since_last)

/-- The dict `TimeTracker.get_summary()` returns when the tracker was
started. -/
structure Summary where
  total_execution_time : ℚ
  checkpoints : List (String × Checkpoint)
  checkpoint_count : ℕ
deriving Repr, DecidableEq

/-- `TimeTracker.get_summary()` with `time.time()` reading `now`; `none`
models the empty dict `{}` returned when the tracker was never started. -/
def TimeTracker.get_summary (t : TimeTracker) (now : ℚ) : Option Summary :=
  match t.start_time with
  | none => none
  | some s => some ⟨now - s, t.checkpoints, t.checkpoints.length⟩

/-! ## `_save_json_log` and its filename (C6, C7) -/

/-- Fixed-width zero-padded decimal rendering, as `strftime` prints the
numeric fields: exactly `w` characters holding the low `w` digits of `n`. -/
def padDigits : ℕ → ℕ → List Char
  | 0, _ => []
  | w + 1, n => padDigits w (n / 10) ++ [Nat.digitChar (n % 10)]

/-- A UTC instant, as produced by `datetime.now(timezone.utc)`. -/
structure UtcTime where
  year : ℕ
  month : ℕ
  day : ℕ
  hour : ℕ
  minute : ℕ
  second : ℕ
  microsecond : ℕ
deriving Repr, DecidableEq

/-- `strftime('%Y%m%d_%H%M%S_%f')`: 22 characters, `%f` being the
six-digit zero-padded microsecond field. -/
def strftimeFull (dt : UtcTime) : List Char :=
  padDigits 4 dt.year ++ padDigits 2 dt.month ++ padDigits 2 dt.day ++ ['_'] ++
  padDigits 2 dt.hour ++ padDigits 2 dt.minute ++ padDigits 2 dt.second ++
  ['_'] ++ padDigits 6 dt.microsecond

/-- The `[:-3]` slice applied to `strftimeFull`: the last three characters
(the sub-millisecond digits of `%f`) are dropped. -/
def timestampMillis (dt : UtcTime) : List Char :=
  (strftimeFull dt).take ((strftimeFull dt).length - 3)

/-- `filename = f"execution_{self._task_id}_{timestamp}.json"`, as a character
list. -/
def logFilename (task_id : String) (dt : UtcTime) : List Char :=
  "execution_".data ++ task_id.data ++ ['_'] ++ timestampMillis dt ++
  ".json".data

/-- `TimeTracker._save_json_log`: builds the filename and attempts the file
write, whose outcome is supplied by the environment.  The
`try ... except Exception` catches every failure and only logs it, so the
function returns normally in both cases; `none` is the case where the error
was logged and swallowed. -/
def TimeTracker.save_json_log (t : TimeTracker) (dt : UtcTime)
    (writeOutcome : Except String Unit) : Option (List Char) :=
  match writeOutcome with
  | Except.ok _ => some (logFilename t.task_id dt)
  | Except.error _ => none

/-- `TimeTracker.finish(test_name)` with `time.time()` reading `now`.  When a
summary exists, `_save_json_log` is attempted; its outcome never changes the
returned value. -/
def TimeTracker.finish (t : TimeTracker) (now : ℚ) (dt : UtcTime)
    (writeOutcome : Except String Unit) : Option Summary :=
  let summary := t.get_summary now
  match summary with
  | some _ =>
      let _ := t.save_json_log dt writeOutcome
      summary
  | none => summary

/-! ## The thread-local registry `get_tracker` -/

/-- The `threading.local()` slot holding one thread's cached tracker. -/
structure ThreadLocal where
  tracker : Option TimeTracker
deriving Repr, DecidableEq

/-- `get_tracker(output_dir)`: on first use in a thread
(`not hasattr(_thread_local, 'tracker')`) a `TimeTracker(output_dir)` is
created and cached; afterwards the cached instance is returned unchanged. -/
def get_tracker (task_id : String) (tl : ThreadLocal) (output_dir : String) :
    ThreadLocal × TimeTracker :=
  match tl.tracker with
  | some t => (tl, t)
  | none =>
      let t := TimeTracker.init task_id output_dir
      (⟨some t⟩, t)

/-- Iterate `get_tracker` over a list of `output_dir` arguments, collecting
each returned tracker. -/
def get_tracker_iter (task_id : String) (tl : ThreadLocal) :
    List String → ThreadLocal × List TimeTracker
  | [] => (tl, [])
  | d :: ds =>
      let p := get_tracker task_id tl d
      let q := get_tracker_iter task_id p.1 ds
      (q.1, p.2 :: q.2)

/-! ## Driving a run: a sequence of `checkpoint` calls -/

/-- One `checkpoint(name, message)` call together with its `time.time()`
reading. -/
structure Call where
  now : ℚ
  name : String
  message : Option String
deriving Repr, DecidableEq

/-- Run a sequence of `checkpoint` calls, collecting the returned values. -/
def runCalls (t : TimeTracker) : List Call → TimeTracker × List ℚ
  | [] => (t, [])
  | c :: cs =>
      let p := t.checkpoint c.now c.name c.message
      let q := runCalls p.1 cs
      (q.1, p.2 :: q.2)

/-- Specification helper: the checkpoint value each call computes, threading
only the `last_checkpoint` state — call at time `now` with previous reading
`l` and start `s` computes `⟨now - l, now - s, msg⟩`. -/
def callOutputs (s : ℚ) (l : ℚ) : List Call → List (String × Checkpoint)
  | [] => []
  | c :: cs => (c.name, ⟨c.now - l, c.now - s, c.message⟩) :: callOutputs s c.now cs

/-- Apply a list of dict assignments in order. -/
def foldInserts {α : Type} (d : List (String × α)) :
    List (String × α) → List (String × α)
  | [] => d
  | (k, v) :: ps => foldInserts (dictInsert k v d) ps

/-- Specification helper: the value of the last pair with key `k`, if any. -/
def lastValue {α : Type} (k : String) (ps : List (String × α)) : Option α :=
  dictLookup k ps.reverse

/-- `checkpoint` on a started tracker, explicitly. -/
theorem checkpoint_started (t : TimeTracker) (s l : ℚ)
    (hs : t.start_time = some s) (hl : t.last_checkpoint = some l)
    (now : ℚ) (name : String) (msg : Option String) :
    t.checkpoint now name msg =
      ({ t with
          checkpoints := dictInsert name ⟨now - l, now - s, msg⟩ t.checkpoints
          last_checkpoint := some now }, now - l) := by
  simp [TimeTracker.checkpoint, hs, hl]

/-- Running calls on a started tracker: the final dict is the initial dict
with the per-call computed checkpoints assigned in order, the returned values
are the computed `time_since_last`s, and the start time is unchanged. -/
theorem runCalls_eq (cs : List Call) (t : TimeTracker) (s l : ℚ)
    (hs : t.start_time = some s) (hl : t.last_checkpoint = some l) :
    (runCalls t cs).1.checkpoints = foldInserts t.checkpoints (callOutputs s l cs) ∧
    (runCalls t cs).2 = (callOutputs s l cs).map (fun p => p.2.time_since_last) ∧
    (runCalls t cs).1.start_time = some s := by
  induction cs generalizing t l with
  | nil => exact ⟨rfl, rfl, hs⟩
  | cons c cs ih =>
      have h1 := checkpoint_started t s l hs hl c.now c.name c.message
      simp only [runCalls, h1, callOutputs, foldInserts, List.map_cons]
      have ih2 := ih ({ t with
          checkpoints := dictInsert c.name ⟨c.now - l, c.now - s, c.message⟩ t.checkpoints
          last_checkpoint := some c.now }) c.now hs rfl
      exact ⟨ih2.1, by rw [ih2.2.1], ih2.2.2⟩

/-! ### Dict lemmas -/

theorem dictLookup_dictInsert {α : Type} (k q : String) (v : α)
    (d : List (String × α)) :
    dictLookup q (dictInsert k v d) =
      if k = q then some v else dictLookup q d := by
  induction d with
  | nil =>
      by_cases h : k = q <;> simp [dictInsert, dictLookup, h]
  | cons p rest ih =>
      obtain ⟨k0, v0⟩ := p
      by_cases h0 : k0 = k
      · subst h0
        by_cases h : k0 = q <;> simp [dictInsert, dictLookup, h]
      · by_cases h : k0 = q
        · subst h
          have : ¬ k = k0 := fun hc => h0 hc.symm
          simp [dictInsert, dictLookup, h0, this]
        · simp [dictInsert, dictLookup, h0, h, ih]

theorem dictKeys_dictInsert {α : Type} (k : String) (v : α)
    (d : List (String × α)) :
    dictKeys (dictInsert k v d) =
      if k ∈ dictKeys d then dictKeys d else dictKeys d ++ [k] := by
  induction d with
  | nil => simp [dictInsert, dictKeys]
  | cons p rest ih =>
      obtain ⟨k0, v0⟩ := p
      by_cases h0 : k0 = k
      · subst h0
        simp [dictInsert, dictKeys]
      · have hne : ¬ k = k0 := fun hc => h0 hc.symm
        simp only [dictInsert, if_neg h0, dictKeys, List.map_cons] at ih ⊢
        rw [ih]
        by_cases hm : k ∈ List.map Prod.fst rest
        · simp [List.mem_cons, hm, hne]
        · simp [List.mem_cons, hm, hne]

theorem mem_dictKeys_dictInsert {α : Type} (k q : String) (v : α)
    (d : List (String × α)) :
    q ∈ dictKeys (dictInsert k v d) ↔ q ∈ dictKeys d ∨ q = k := by
  rw [dictKeys_dictInsert]
  by_cases hm : k ∈ dictKeys d
  · simp only [hm, if_true]
    constructor
    · exact fun h => Or.inl h
    · rintro (h | rfl)
      · exact h
      · exact hm
  · simp [hm, or_comm]

theorem nodup_dictKeys_dictInsert {α : Type} (k : String) (v : α)
    (d : List (String × α)) (h : (dictKeys d).Nodup) :
    (dictKeys (dictInsert k v d)).Nodup := by
  rw [dictKeys_dictInsert]
  by_cases hm : k ∈ dictKeys d
  · simpa [hm] using h
  · simpa [hm, List.nodup_append] using h

/-- When the assigned key is absent, a dict assignment is a plain append. -/
theorem dictInsert_of_not_mem {α : Type} (k : String) (v : α)
    (d : List (String × α)) (h : k ∉ dictKeys d) :
    dictInsert k v d = d ++ [(k, v)] := by
  induction d with
  | nil => simp [dictInsert]
  | cons p rest ih =>
      obtain ⟨k0, v0⟩ := p
      simp only [dictKeys, List.map_cons, List.mem_cons, not_or] at h
      have h0 : ¬ k0 = k := fun hc => h.1 hc.symm
      simp [dictInsert, h0, ih (by simpa [dictKeys] using h.2)]

/-- `Option` alternative: the first value if present, else the second. -/
def optOr {α : Type} : Option α → Option α → Option α
  | some v, _ => some v
  | none, b => b

theorem dictLookup_append {α : Type} (k : String) (xs ys : List (String × α)) :
    dictLookup k (xs ++ ys) = optOr (dictLookup k xs) (dictLookup k ys) := by
  induction xs with
  | nil => simp [dictLookup, optOr]
  | cons p rest ih =>
      obtain ⟨k0, v0⟩ := p
      by_cases h : k0 = k <;> simp [dictLookup, h, ih, optOr]

/-- Replaying dict assignments: a key's final value is the value of the last
assignment to it, or its original value if it was never assigned. -/
theorem dictLookup_foldInserts {α : Type} (k : String)
    (ps d : List (String × α)) :
    dictLookup k (foldInserts d ps) = optOr (lastValue k ps) (dictLookup k d) := by
  induction ps generalizing d with
  | nil => simp [foldInserts, lastValue, dictLookup, optOr]
  | cons p ps ih =>
      obtain ⟨k1, v1⟩ := p
      simp only [foldInserts, ih, lastValue, List.reverse_cons, dictLookup_append]
      cases hL : dictLookup k ps.reverse with
      | some w => simp [optOr]
      | none =>
          by_cases h : k1 = k <;>
            simp [optOr, dictLookup, h, dictLookup_dictInsert]

theorem mem_dictKeys_foldInserts {α : Type} (q : String)
    (ps d : List (String × α)) :
    q ∈ dictKeys (foldInserts d ps) ↔ q ∈ dictKeys d ∨ q ∈ dictKeys ps := by
  induction ps generalizing d with
  | nil => simp [foldInserts, dictKeys]
  | cons p ps ih =>
      obtain ⟨k1, v1⟩ := p
      show q ∈ dictKeys (foldInserts (dictInsert k1 v1 d) ps) ↔ _
      rw [ih, mem_dictKeys_dictInsert]
      simp only [dictKeys, List.map_cons, List.mem_cons]
      tauto

theorem nodup_dictKeys_foldInserts {α : Type} (ps d : List (String × α))
    (h : (dictKeys d).Nodup) : (dictKeys (foldInserts d ps)).Nodup := by
  induction ps generalizing d with
  | nil => exact h
  | cons p ps ih =>
      obtain ⟨k1, v1⟩ := p
      exact ih _ (nodup_dictKeys_dictInsert k1 v1 d h)

/-- When no assigned key repeats and none is already present, replaying the
assignments is a plain append (the entries end up in call order). -/
theorem foldInserts_eq_append {α : Type} (ps d : List (String × α))
    (hnodup : (dictKeys ps).Nodup)
    (hdisj : ∀ k ∈ dictKeys ps, k ∉ dictKeys d) :
    foldInserts d ps = d ++ ps := by
  induction ps generalizing d with
  | nil => simp [foldInserts]
  | cons p ps ih =>
      obtain ⟨k1, v1⟩ := p
      have hk1 : k1 ∉ dictKeys d := hdisj k1 (by simp [dictKeys])
      have hn : (dictKeys ps).Nodup := by
        simpa [dictKeys] using hnodup.of_cons
      have hk1ps : k1 ∉ dictKeys ps := by
        have := hnodup
        simp only [dictKeys, List.map_cons, List.nodup_cons] at this
        exact this.1
      have hd : ∀ k ∈ dictKeys ps, k ∉ dictKeys (d ++ [(k1, v1)]) := by
        intro k hk hmem
        rw [dictKeys, List.map_append] at hmem
        rcases List.mem_append.mp hmem with h | h
        · exact hdisj k (by rw [dictKeys, List.map_cons]; exact List.mem_cons_of_mem _ hk) h
        · simp only [List.map_cons, List.map_nil, List.mem_singleton] at h
          exact hk1ps (h ▸ hk)
      calc foldInserts d ((k1, v1) :: ps)
          = foldInserts (d ++ [(k1, v1)]) ps := by
            simp [foldInserts, dictInsert_of_not_mem k1 v1 d hk1]
        _ = (d ++ [(k1, v1)]) ++ ps := ih _ hn hd
        _ = d ++ (k1, v1) :: ps := by simp

/-! ### `callOutputs` facts -/

theorem callOutputs_map_fst (s l : ℚ) (cs : List Call) :
    (callOutputs s l cs).map Prod.fst = cs.map Call.name := by
  induction cs generalizing l with
  | nil => rfl
  | cons c cs ih => simp [callOutputs, ih]

theorem callOutputs_map_total_elapsed (s l : ℚ) (cs : List Call) :
    (callOutputs s l cs).map (fun p => p.2.total_elapsed) =
      cs.map (fun c => c.now - s) := by
  induction cs generalizing l with
  | nil => rfl
  | cons c cs ih => simp [callOutputs, ih]

/-- Successive differences of a list, each element minus its predecessor
(the first minus the given seed). -/
def adjacentDiffs : ℚ → List ℚ → List ℚ
  | _, [] => []
  | prev, x :: xs => (x - prev) :: adjacentDiffs x xs

/-- The `time_since_last` of each computed checkpoint is exactly the
difference between its `total_elapsed` and the previous one (seeded with
`l - s`, the elapsed time already on the clock). -/
theorem callOutputs_time_since_last (s l : ℚ) (cs : List Call) :
    (callOutputs s l cs).map (fun p => p.2.time_since_last) =
      adjacentDiffs (l - s)
        ((callOutputs s l cs).map (fun p => p.2.total_elapsed)) := by
  induction cs generalizing l with
  | nil => rfl
  | cons c cs ih =>
      simp only [callOutputs, List.map_cons, adjacentDiffs, ih]
      congr 1
      ring

/-! ## Claim C5 -/

/-- C5: `start` resets the tracker even when it already holds checkpoints:
afterwards the checkpoint dict is empty (a summary taken at any later instant
reports `checkpoint_count = 0`), `start_time` is the current clock reading
and `last_checkpoint` equals it. -/
theorem start_resets (t : TimeTracker) (now now2 : ℚ) (nm : Option String) :
    (t.start now nm).checkpoints = [] ∧
    (t.start now nm).start_time = some now ∧
    (t.start now nm).last_checkpoint = some now ∧
    (t.start now nm).get_summary now2 = some ⟨now2 - now, [], 0⟩ := by
  refine ⟨rfl, rfl, rfl, ?_⟩
  simp [TimeTracker.start, TimeTracker.get_summary]

/-! ## Claim C10 -/

/-- C10: in one thread, the first `get_tracker(output_dir)` call creates and
caches a tracker configured with that `output_dir`; every subsequent call
returns that same cached instance and leaves the cache unchanged, whatever
`output_dir` arguments the later calls pass. -/
theorem get_tracker_caches_first_dir (task d1 : String) (ds : List String) :
    (get_tracker task ⟨none⟩ d1).2 = TimeTracker.init task d1 ∧
    (get_tracker task ⟨none⟩ d1).2.output_dir = d1 ∧
    (get_tracker_iter task (get_tracker task ⟨none⟩ d1).1 ds).2 =
      ds.map (fun _ => (get_tracker task ⟨none⟩ d1).2) ∧
    (get_tracker_iter task (get_tracker task ⟨none⟩ d1).1 ds).1 =
      (get_tracker task ⟨none⟩ d1).1 := by
  refine ⟨rfl, rfl, ?_, ?_⟩ <;>
  · induction ds with
    | nil => rfl
    | cons d ds ih => simpa [get_tracker_iter, get_tracker] using ih

theorem optOr_none_right {α : Type} (a : Option α) : optOr a none = a := by
  cases a <;> rfl

/-! ## Claim C1 -/

/-- C1 (amended): within one run whose checkpoint names are pairwise distinct
and whose clock readings are non-decreasing, the stored checkpoints appear in
call order, their `total_elapsed` values are monotonically non-decreasing,
each stored `time_since_last` equals the difference between its
`total_elapsed` and the previous one (the first being measured from zero,
i.e. from the start), and the values returned by the `checkpoint` calls are
exactly the stored `time_since_last` values. -/
theorem run_elapsed_monotone (task dir tname : String) (s : ℚ) (cs : List Call)
    (hnodup : (cs.map Call.name).Nodup)
    (hmono : List.Chain' (· ≤ ·) (s :: cs.map Call.now)) :
    (runCalls ((TimeTracker.init task dir).start s (some tname)) cs).1.checkpoints =
      callOutputs s s cs ∧
    List.Chain' (· ≤ ·)
      ((callOutputs s s cs).map (fun p => p.2.total_elapsed)) ∧
    (callOutputs s s cs).map (fun p => p.2.time_since_last) =
      adjacentDiffs 0 ((callOutputs s s cs).map (fun p => p.2.total_elapsed)) ∧
    (runCalls ((TimeTracker.init task dir).start s (some tname)) cs).2 =
      (callOutputs s s cs).map (fun p => p.2.time_since_last) := by
  have hrun := runCalls_eq cs ((TimeTracker.init task dir).start s (some tname))
    s s rfl rfl
  refine ⟨?_, ?_, ?_, hrun.2.1⟩
  · rw [hrun.1]
    show foldInserts [] (callOutputs s s cs) = _
    rw [foldInserts_eq_append _ _
      (by rw [dictKeys, callOutputs_map_fst]; exact hnodup)
      (by intro k _ hmem; simp [dictKeys] at hmem)]
    simp
  · rw [callOutputs_map_total_elapsed]
    have h1 : List.Chain' (· ≤ ·) (cs.map Call.now) := hmono.tail
    have h2 : cs.map (fun c => c.now - s) =
        (cs.map Call.now).map (fun x => x - s) := by
      simp [List.map_map]
    rw [h2, List.chain'_map]
    exact h1.imp (fun _ _ h => sub_le_sub_right h s)
  · simpa using callOutputs_time_since_last s s cs

/-- C1 counterexample: when a checkpoint name repeats, the entry keeps its
original dict position but receives the values of the later call, so the
stored `total_elapsed` values — in stored order — are NOT monotonically
non-decreasing, and the first stored `time_since_last` no longer equals its
`total_elapsed` minus zero.  Run: start at 0, then `checkpoint("a")` at 1,
`checkpoint("b")` at 2, `checkpoint("a")` at 3. -/
theorem run_elapsed_monotone_cex :
    ((runCalls ((TimeTracker.init "t" "d").start 0 (some "run"))
        [⟨1, "a", none⟩, ⟨2, "b", none⟩, ⟨3, "a", none⟩]).1.checkpoints).map
      (fun p => p.2.total_elapsed) = [3, 2] ∧
    ¬ List.Chain' (· ≤ ·)
      (((runCalls ((TimeTracker.init "t" "d").start 0 (some "run"))
          [⟨1, "a", none⟩, ⟨2, "b", none⟩, ⟨3, "a", none⟩]).1.checkpoints).map
        (fun p => p.2.total_elapsed)) := by
  have h : ((runCalls ((TimeTracker.init "t" "d").start 0 (some "run"))
      [⟨1, "a", none⟩, ⟨2, "b", none⟩, ⟨3, "a", none⟩]).1.checkpoints).map
        (fun p => p.2.total_elapsed) = [3, 2] := by
    have hrun := runCalls_eq [⟨1, "a", none⟩, ⟨2, "b", none⟩, ⟨3, "a", none⟩]
      ((TimeTracker.init "t" "d").start 0 (some "run")) 0 0 rfl rfl
    rw [hrun.1]
    norm_num [callOutputs, foldInserts, dictInsert, TimeTracker.start,
      TimeTracker.init]
  refine ⟨h, ?_⟩
  rw [h]
  intro hch
  rw [List.chain'_cons] at hch
  exact absurd hch.1 (by norm_num)

/-- Witness for C1 at a concrete two-checkpoint run (start 0, calls at 1, 2
with distinct names). -/
theorem run_elapsed_monotone_witness :
    List.Chain' (· ≤ ·)
      ((callOutputs 0 0 [⟨1, "a", none⟩, ⟨2, "b", none⟩]).map
        (fun p => p.2.total_elapsed)) ∧
    (callOutputs 0 0 [⟨1, "a", none⟩, ⟨2, "b", none⟩]).map
        (fun p => p.2.time_since_last) =
      adjacentDiffs 0 ((callOutputs 0 0 [⟨1, "a", none⟩, ⟨2, "b", none⟩]).map
        (fun p => p.2.total_elapsed)) :=
  ⟨(run_elapsed_monotone "t" "d" "run" 0 [⟨1, "a", none⟩, ⟨2, "b", none⟩]
      (by simp) (by norm_num [List.chain'_cons])).2.1,
   (run_elapsed_monotone "t" "d" "run" 0 [⟨1, "a", none⟩, ⟨2, "b", none⟩]
      (by simp) (by norm_num [List.chain'_cons])).2.2.1⟩

/-! ## Claim C4 -/

/-- C4: when `checkpoint` is called repeatedly with the same name within one
run, the stored dict keeps exactly one entry for that name, holding the
checkpoint computed by the last call with that name (last write wins), and
`checkpoint_count` counts each called name once (the key set is exactly the
set of called names, without duplicates). -/
theorem checkpoint_last_write_wins (task dir tname : String) (s : ℚ)
    (cs : List Call) (name : String) (hmem : name ∈ cs.map Call.name) :
    (dictKeys (runCalls ((TimeTracker.init task dir).start s (some tname))
        cs).1.checkpoints).Nodup ∧
    ((runCalls ((TimeTracker.init task dir).start s (some tname))
        cs).1.checkpoints.countP (fun p => p.1 = name)) = 1 ∧
    dictLookup name (runCalls ((TimeTracker.init task dir).start s (some tname))
        cs).1.checkpoints = lastValue name (callOutputs s s cs) ∧
    (∀ q : String,
      q ∈ dictKeys (runCalls ((TimeTracker.init task dir).start s (some tname))
          cs).1.checkpoints ↔ q ∈ cs.map Call.name) := by
  have hrun := runCalls_eq cs ((TimeTracker.init task dir).start s (some tname))
    s s rfl rfl
  have hcp : (runCalls ((TimeTracker.init task dir).start s (some tname))
      cs).1.checkpoints = foldInserts [] (callOutputs s s cs) := hrun.1
  have hnd : (dictKeys (foldInserts ([] : List (String × Checkpoint))
      (callOutputs s s cs))).Nodup := by
    exact nodup_dictKeys_foldInserts _ _ (by simp [dictKeys])
  have hiff : ∀ q : String,
      q ∈ dictKeys (foldInserts ([] : List (String × Checkpoint))
        (callOutputs s s cs)) ↔ q ∈ cs.map Call.name := by
    intro q
    rw [mem_dictKeys_foldInserts]
    simp only [dictKeys]
    rw [callOutputs_map_fst]
    simp
  refine ⟨hcp ▸ hnd, ?_, ?_, fun q => hcp ▸ hiff q⟩
  · rw [hcp]
    have hcount : (foldInserts ([] : List (String × Checkpoint))
        (callOutputs s s cs)).countP (fun p => p.1 = name) =
        (dictKeys (foldInserts ([] : List (String × Checkpoint))
          (callOutputs s s cs))).count name := by
      rw [List.count, dictKeys, List.countP_map]
      apply List.countP_congr
      intro a _
      by_cases h : a.1 = name <;> simp [Function.comp, h]
    rw [hcount]
    exact List.count_eq_one_of_mem hnd ((hiff name).mpr hmem)
  · rw [hcp, dictLookup_foldInserts]
    show optOr _ none = _
    exact optOr_none_right _

/-- Witness for C4 at a concrete run where name "a" is recorded at times 1
and 3 with a "b" in between: the stored entry for "a" is the one computed by
the last call, and there is exactly one entry for "a". -/
theorem checkpoint_last_write_wins_witness :
    dictLookup "a" ((runCalls ((TimeTracker.init "t" "d").start 0 (some "run"))
        [⟨1, "a", none⟩, ⟨2, "b", none⟩, ⟨3, "a", none⟩]).1.checkpoints) =
      lastValue "a" (callOutputs 0 0
        [⟨1, "a", none⟩, ⟨2, "b", none⟩, ⟨3, "a", none⟩]) ∧
    ((runCalls ((TimeTracker.init "t" "d").start 0 (some "run"))
        [⟨1, "a", none⟩, ⟨2, "b", none⟩, ⟨3, "a", none⟩]).1.checkpoints.countP
      (fun p => p.1 = "a")) = 1 :=
  ⟨(checkpoint_last_write_wins "t" "d" "run" 0
      [⟨1, "a", none⟩, ⟨2, "b", none⟩, ⟨3, "a", none⟩] "a" (by simp)).2.2.1,
   (checkpoint_last_write_wins "t" "d" "run" 0
      [⟨1, "a", none⟩, ⟨2, "b", none⟩, ⟨3, "a", none⟩] "a" (by simp)).2.1⟩

/-! ## Claim C7 -/

/-- C7: on a started run, even when the record write raises, `finish` still
returns the complete in-memory summary (total time, all checkpoints, their
count) and raises nothing: `_save_json_log` catches the failure and merely
logs it. -/
theorem finish_swallows_write_failure (t : TimeTracker) (s now : ℚ)
    (dt : UtcTime) (err : String) (hs : t.start_time = some s) :
    t.finish now dt (Except.error err) =
      some ⟨now - s, t.checkpoints, t.checkpoints.length⟩ ∧
    t.finish now dt (Except.error err) = t.get_summary now ∧
    t.save_json_log dt (Except.error err) = none := by
  refine ⟨?_, ?_, rfl⟩ <;>
    simp [TimeTracker.finish, TimeTracker.get_summary, hs]

/-- Witness for C7: a freshly started tracker whose record write fails with
"disk full" still returns its summary from `finish`. -/
theorem finish_swallows_write_failure_witness :
    ((TimeTracker.init "t" "d").start 0 (some "run")).finish 5
        ⟨2026, 1, 2, 3, 4, 5, 0⟩ (Except.error "disk full") =
      some ⟨5, [], 0⟩ := by
  simpa using (finish_swallows_write_failure
    ((TimeTracker.init "t" "d").start 0 (some "run")) 0 5
    ⟨2026, 1, 2, 3, 4, 5, 0⟩ "disk full" rfl).1

/-! ## `tests/performance_analyzer.py`: class `PerformanceAnalyzer` -/

/-- One checkpoint entry as read back from an `execution_*.json` record
(`checkpoint_data.get('time_since_last', 0)` etc.). -/
structure CpData where
  time_since_last : ℚ
  total_elapsed : ℚ
  timestamp : String
deriving Repr, DecidableEq

/-- One parsed run record.  A checkpoint value that is not a JSON object
(so `isinstance(checkpoint_data, dict)` is false and the entry is ignored)
is modelled as `none`. -/
structure Execution where
  test_name : String
  task_id : String
  timestamp : String
  total_execution_time : ℚ
  checkpoints : List (String × Option CpData)
deriving Repr, DecidableEq

/-- Result of `_calculate_time_stats`: an empty input yields the bare
`{'count': 0}` dict (no other field present); otherwise all seven fields are
present. -/
inductive TimeStats where
  | empty : TimeStats
  | full (count : ℕ) (min max sum mean median std_dev : ℚ) : TimeStats
deriving Repr, DecidableEq

/-- The `count` field, present in both shapes. -/
def TimeStats.countVal : TimeStats → ℕ
  | .empty => 0
  | .full c _ _ _ _ _ _ => c

/-- `stats.get('mean', 0)`, as used for the summary averages. -/
def TimeStats.meanOrZero : TimeStats → ℚ
  | .empty => 0
  | .full _ _ _ _ m _ _ => m

def TimeStats.minVal : TimeStats → ℚ
  | .empty => 0
  | .full _ m _ _ _ _ _ => m

def TimeStats.maxVal : TimeStats → ℚ
  | .empty => 0
  | .full _ _ m _ _ _ _ => m

def TimeStats.sumVal : TimeStats → ℚ
  | .empty => 0
  | .full _ _ _ s _ _ _ => s

def TimeStats.medianVal : TimeStats → ℚ
  | .empty => 0
  | .full _ _ _ _ _ m _ => m

def TimeStats.stdDevVal : TimeStats → ℚ
  | .empty => 0
  | .full _ _ _ _ _ _ d => d

/-- Python `min(x, *rest)` over a non-empty list. -/
def pyMin (x : ℚ) (xs : List ℚ) : ℚ := xs.foldl min x

/-- Python `max(x, *rest)` over a non-empty list. -/
def pyMax (x : ℚ) (xs : List ℚ) : ℚ := xs.foldl max x

/-- `statistics.median(xs)` (external library, modelled by its documented
semantics): the middle element of the sorted data, or the average of the two
middle elements when the length is even. -/
def pyMedian (xs : List ℚ) : ℚ :=
  let sorted := xs.mergeSort (fun a b => a ≤ b)
  let n := xs.length
  if n % 2 = 1 then sorted.getD (n / 2) 0
  else (sorted.getD (n / 2 - 1) 0 + sorted.getD (n / 2) 0) / 2

/-- `_calculate_time_stats(times)`.  `stdev` stands for the external
`statistics.stdev` (only consulted when `len(times) > 1`); exact rational
arithmetic models the float computations, with `statistics.mean` being
`sum/n`. -/
def calculate_time_stats (stdev : List ℚ → ℚ) : List ℚ → TimeStats
  | [] => TimeStats.empty
  | x :: xs =>
      TimeStats.full (x :: xs).length (pyMin x xs) (pyMax x xs)
        (x :: xs).sum ((x :: xs).sum / ((x :: xs).length : ℚ))
        (pyMedian (x :: xs))
        (if 1 < (x :: xs).length then stdev (x :: xs) else 0)

/-- One element appended to `checkpoint_times[checkpoint_name]`. -/
structure Sample where
  time_since_last : ℚ
  total_elapsed : ℚ
  task_id : String
  timestamp : String
deriving Repr, DecidableEq

/-- `defaultdict(list)` append `m[name].append(s)`: extends the list at an
existing key (which keeps its position) or appends a new singleton entry at
the end. -/
def addSample (name : String) (s : Sample) :
    List (String × List Sample) → List (String × List Sample)
  | [] => [(name, [s])]
  | (k, vs) :: rest =>
      if k = name then (k, vs ++ [s]) :: rest
      else (k, vs) :: addSample name s rest

/-- The inner loop over `execution.get('checkpoints', {}).items()`: every
well-formed checkpoint entry contributes one sample tagged with the record's
`task_id`. -/
def collectCps (task_id : String) (m : List (String × List Sample)) :
    List (String × Option CpData) → List (String × List Sample)
  | [] => m
  | (n, some d) :: ps =>
      collectCps task_id
        (addSample n ⟨d.time_since_last, d.total_elapsed, task_id, d.timestamp⟩ m) ps
  | (_, none) :: ps => collectCps task_id m ps

/-- One iteration of the outer loop over `execution_data`. -/
def collectExec (m : List (String × List Sample)) (e : Execution) :
    List (String × List Sample) :=
  collectCps e.task_id m e.checkpoints

/-- The outer aggregation loop, starting from a given map state. -/
def collectRuns (m : List (String × List Sample)) :
    List Execution → List (String × List Sample)
  | [] => m
  | e :: es => collectRuns (collectExec m e) es

/-- The complete `checkpoint_times` map built by
`_calculate_parallel_statistics`. -/
def collectSamples (execs : List Execution) : List (String × List Sample) :=
  collectRuns [] execs

/-- One entry of `execution_details`. -/
structure ExecutionInfo where
  test_name : String
  task_id : String
  timestamp : String
  total_time : ℚ
deriving Repr, DecidableEq

/-- One value of the `checkpoint_statistics` mapping. -/
structure CheckpointStats where
  count : ℕ
  time_since_last : TimeStats
  total_elapsed : TimeStats
  details : List Sample
deriving Repr, DecidableEq

/-- One entry of `summary['checkpoints_summary']`. -/
structure SummaryEntry where
  name : String
  avg_time_since_last : ℚ
  avg_total_elapsed : ℚ
  count : ℕ
deriving Repr, DecidableEq

/-- The analysis result dict (`analysis_timestamp`, a wall-clock string, is
presentational and omitted). -/
structure AnalysisResult where
  total_executions : ℕ
  execution_details : List ExecutionInfo
  overall_statistics : TimeStats
  checkpoint_statistics : List (String × CheckpointStats)
  avg_total_execution_time : ℚ
  total_checkpoints : ℕ
  checkpoints_summary : List SummaryEntry
deriving Repr, DecidableEq

/-- `_calculate_parallel_statistics(execution_data)`. -/
def calculate_parallel_statistics (stdev : List ℚ → ℚ)
    (execution_data : List Execution) : AnalysisResult :=
  let total_times := execution_data.map (fun e => e.total_execution_time)
  let execution_info := execution_data.map (fun e =>
    ExecutionInfo.mk e.test_name e.task_id e.timestamp e.total_execution_time)
  let checkpoint_times := collectSamples execution_data
  let checkpoint_stats := checkpoint_times.map (fun p =>
    (p.1, CheckpointStats.mk p.2.length
      (calculate_time_stats stdev (p.2.map (fun v => v.time_since_last)))
      (calculate_time_stats stdev (p.2.map (fun v => v.total_elapsed)))
      p.2))
  let checkpoint_summary := checkpoint_times.map (fun p =>
    SummaryEntry.mk p.1
      (calculate_time_stats stdev (p.2.map (fun v => v.time_since_last))).meanOrZero
      (calculate_time_stats stdev (p.2.map (fun v => v.total_elapsed))).meanOrZero
      p.2.length)
  let overall := calculate_time_stats stdev total_times
  AnalysisResult.mk execution_data.length execution_info overall
    checkpoint_stats overall.meanOrZero checkpoint_times.length
    (checkpoint_summary.mergeSort
      (fun a b => a.avg_total_elapsed ≤ b.avg_total_elapsed))

/-- `analyze_parallel_execution_logs`: `files` holds the parse outcome of
each glob-matched `execution_*.json` file, in directory order.  The result is
`none` exactly where the source returns the empty dict `{}`: no file matched,
or every file failed to parse. -/
def analyze_parallel_execution_logs (stdev : List ℚ → ℚ)
    (files : List (Except String Execution)) : Option AnalysisResult :=
  if files.isEmpty then none
  else
    let all_executions := files.filterMap Except.toOption
    if all_executions.isEmpty then none
    else some (calculate_parallel_statistics stdev all_executions)

/-! ## Claim C2 -/

/-- C2 counterexample: over an empty directory (no `execution_*.json` file
matches) the source returns the empty dict `{}` — modelled as `none` — and
not a well-formed Analysis Result with zero counts; so the claim that
aggregating zero run records "yields an AnalysisResult ... not an
empty/absent result" is false for this entry point. -/
theorem analyze_empty_dir_cex :
    analyze_parallel_execution_logs (fun _ => 0) [] = none := rfl

/-- C2 (amended): aggregating zero run records raises no exception:
`_calculate_time_stats([])` is the bare `{'count': 0}` dict and
`_calculate_parallel_statistics([])` is a well-formed zero-valued result
(overall statistics with `count = 0`, no checkpoint statistics, empty
summary); but `analyze_parallel_execution_logs` over an empty directory (or
one whose every record fails to parse) returns the empty dict `{}`, not such
a zero-valued result. -/
theorem aggregate_zero_records (stdev : List ℚ → ℚ) (err : String) :
    calculate_time_stats stdev [] = TimeStats.empty ∧
    (calculate_time_stats stdev []).countVal = 0 ∧
    calculate_parallel_statistics stdev [] =
      AnalysisResult.mk 0 [] TimeStats.empty [] 0 0 [] ∧
    (calculate_parallel_statistics stdev []).overall_statistics.countVal = 0 ∧
    analyze_parallel_execution_logs stdev [] = none ∧
    analyze_parallel_execution_logs stdev [Except.error err] = none := by
  refine ⟨rfl, rfl, ?_, rfl, rfl, rfl⟩
  simp [calculate_parallel_statistics, collectSamples, collectRuns,
    calculate_time_stats, TimeStats.meanOrZero]

/-! ## Claim C8 -/

/-- C8: the analysis outcome is a function of exactly the successfully
parsed records (in order): a record file that fails to parse is skipped,
and inserting a failing file anywhere in the directory scan leaves the
entire analysis result unchanged. -/
theorem analyze_skips_unparseable (stdev : List ℚ → ℚ) :
    (∀ files : List (Except String Execution),
      analyze_parallel_execution_logs stdev files =
        if (files.filterMap Except.toOption).isEmpty then none
        else some (calculate_parallel_statistics stdev
          (files.filterMap Except.toOption))) ∧
    (∀ (l1 l2 : List (Except String Execution)) (err : String),
      analyze_parallel_execution_logs stdev (l1 ++ Except.error err :: l2) =
        analyze_parallel_execution_logs stdev (l1 ++ l2)) := by
  have h1 : ∀ files : List (Except String Execution),
      analyze_parallel_execution_logs stdev files =
        if (files.filterMap Except.toOption).isEmpty then none
        else some (calculate_parallel_statistics stdev
          (files.filterMap Except.toOption)) := by
    intro files
    cases files with
    | nil => rfl
    | cons f fs => rfl
  refine ⟨h1, fun l1 l2 err => ?_⟩
  rw [h1, h1]
  have h2 : (l1 ++ Except.error err :: l2).filterMap Except.toOption =
      (l1 ++ l2).filterMap Except.toOption := by
    simp [List.filterMap_append, List.filterMap_cons, Except.toOption]
  rw [h2]

/-! ## Claim C3 -/

theorem pyMin_le_init (x : ℚ) (xs : List ℚ) : pyMin x xs ≤ x := by
  induction xs generalizing x with
  | nil => simp [pyMin]
  | cons y ys ih => exact le_trans (ih (min x y)) (min_le_left x y)

theorem pyMin_mem (x : ℚ) (xs : List ℚ) : pyMin x xs ∈ x :: xs := by
  induction xs generalizing x with
  | nil => simp [pyMin]
  | cons y ys ih =>
      have h := ih (min x y)
      show pyMin (min x y) ys ∈ x :: y :: ys
      rcases List.mem_cons.mp h with h1 | h1
      · rcases min_choice x y with hc | hc
        · rw [h1, hc]; exact List.mem_cons_self x (y :: ys)
        · rw [h1, hc]
          exact List.mem_cons_of_mem x (List.mem_cons_self y ys)
      · exact List.mem_cons_of_mem x (List.mem_cons_of_mem y h1)

theorem pyMin_le (x : ℚ) (xs : List ℚ) : ∀ z ∈ x :: xs, pyMin x xs ≤ z := by
  induction xs generalizing x with
  | nil =>
      intro z hz
      rcases List.mem_singleton.mp hz with rfl
      simp [pyMin]
  | cons y ys ih =>
      intro z hz
      show pyMin (min x y) ys ≤ z
      rcases List.mem_cons.mp hz with h | hz1
      · rw [h]; exact le_trans (pyMin_le_init (min x y) ys) (min_le_left x y)
      · rcases List.mem_cons.mp hz1 with h | hz2
        · rw [h]; exact le_trans (pyMin_le_init (min x y) ys) (min_le_right x y)
        · exact ih (min x y) z (List.mem_cons_of_mem _ hz2)

theorem pyMax_init_le (x : ℚ) (xs : List ℚ) : x ≤ pyMax x xs := by
  induction xs generalizing x with
  | nil => simp [pyMax]
  | cons y ys ih => exact le_trans (le_max_left x y) (ih (max x y))

theorem pyMax_mem (x : ℚ) (xs : List ℚ) : pyMax x xs ∈ x :: xs := by
  induction xs generalizing x with
  | nil => simp [pyMax]
  | cons y ys ih =>
      have h := ih (max x y)
      show pyMax (max x y) ys ∈ x :: y :: ys
      rcases List.mem_cons.mp h with h1 | h1
      · rcases max_choice x y with hc | hc
        · rw [h1, hc]; exact List.mem_cons_self x (y :: ys)
        · rw [h1, hc]
          exact List.mem_cons_of_mem x (List.mem_cons_self y ys)
      · exact List.mem_cons_of_mem x (List.mem_cons_of_mem y h1)

theorem pyMax_ge (x : ℚ) (xs : List ℚ) : ∀ z ∈ x :: xs, z ≤ pyMax x xs := by
  induction xs generalizing x with
  | nil =>
      intro z hz
      rcases List.mem_singleton.mp hz with rfl
      simp [pyMax]
  | cons y ys ih =>
      intro z hz
      show z ≤ pyMax (max x y) ys
      rcases List.mem_cons.mp hz with h | hz1
      · rw [h]; exact le_trans (le_max_left x y) (pyMax_init_le (max x y) ys)
      · rcases List.mem_cons.mp hz1 with h | hz2
        · rw [h]; exact le_trans (le_max_right x y) (pyMax_init_le (max x y) ys)
        · exact ih (max x y) z (List.mem_cons_of_mem _ hz2)

/-- Sample variance with Bessel correction (divisor `n − 1`): the quantity
whose non-negative square root `statistics.stdev` returns, stated from the
spec's description of `std_dev`. -/
def besselVariance (xs : List ℚ) : ℚ :=
  ((xs.map (fun v => (v - xs.sum / (xs.length : ℚ)) ^ 2)).sum) /
    ((xs.length : ℚ) - 1)

/-- C3: for every non-empty sample list the computed statistics have
`count = length`, `min`/`max` the least/greatest element, `sum` the total,
`mean = sum / count`, `median` the standard median of the sorted data, and a
`std_dev` field that is always present: the Bessel-corrected sample standard
deviation when the sample size exceeds one (assuming the external
`statistics.stdev` meets its documented contract on this input), and exactly
`0` when the sample size is one. -/
theorem time_stats_fields (stdev : List ℚ → ℚ) (x : ℚ) (xs : List ℚ)
    (hstdev : 1 < (x :: xs).length →
      0 ≤ stdev (x :: xs) ∧ stdev (x :: xs) ^ 2 = besselVariance (x :: xs)) :
    (calculate_time_stats stdev (x :: xs)).countVal = (x :: xs).length ∧
    ((calculate_time_stats stdev (x :: xs)).minVal ∈ x :: xs ∧
      ∀ y ∈ x :: xs, (calculate_time_stats stdev (x :: xs)).minVal ≤ y) ∧
    ((calculate_time_stats stdev (x :: xs)).maxVal ∈ x :: xs ∧
      ∀ y ∈ x :: xs, y ≤ (calculate_time_stats stdev (x :: xs)).maxVal) ∧
    (calculate_time_stats stdev (x :: xs)).sumVal = (x :: xs).sum ∧
    (calculate_time_stats stdev (x :: xs)).meanOrZero =
      (x :: xs).sum / (((x :: xs).length : ℚ)) ∧
    (∃ sorted : List ℚ, sorted.Perm (x :: xs) ∧ sorted.Sorted (· ≤ ·) ∧
      (calculate_time_stats stdev (x :: xs)).medianVal =
        (if (x :: xs).length % 2 = 1 then sorted.getD ((x :: xs).length / 2) 0
         else (sorted.getD ((x :: xs).length / 2 - 1) 0 +
           sorted.getD ((x :: xs).length / 2) 0) / 2)) ∧
    (1 < (x :: xs).length →
      0 ≤ (calculate_time_stats stdev (x :: xs)).stdDevVal ∧
      (calculate_time_stats stdev (x :: xs)).stdDevVal ^ 2 =
        besselVariance (x :: xs)) ∧
    ((x :: xs).length = 1 →
      (calculate_time_stats stdev (x :: xs)).stdDevVal = 0) := by
  refine ⟨rfl, ⟨pyMin_mem x xs, pyMin_le x xs⟩, ⟨pyMax_mem x xs, pyMax_ge x xs⟩,
    rfl, rfl, ?_, ?_, ?_⟩
  · refine ⟨(x :: xs).mergeSort (fun a b => a ≤ b),
      List.mergeSort_perm (x :: xs) _, List.sorted_mergeSort' (x :: xs), rfl⟩
  · intro h
    have hd : (calculate_time_stats stdev (x :: xs)).stdDevVal =
        stdev (x :: xs) := by
      show (if 1 < (x :: xs).length then stdev (x :: xs) else 0) = _
      rw [if_pos h]
    rw [hd]
    exact hstdev h
  · intro h
    show (if 1 < (x :: xs).length then stdev (x :: xs) else 0) = 0
    rw [h]
    norm_num

/-- Witness for C3 at the sample list `[0, 2, 4]` with a library `stdev`
returning `2` (indeed `2² = 4` is the Bessel-corrected variance of that
list). -/
theorem time_stats_fields_witness :
    (calculate_time_stats (fun _ => 2) [0, 2, 4]).meanOrZero =
      ([0, 2, 4] : List ℚ).sum / ((([0, 2, 4] : List ℚ).length : ℚ)) ∧
    (calculate_time_stats (fun _ => 2) [0, 2, 4]).stdDevVal ^ 2 =
      besselVariance [0, 2, 4] := by
  have hst : 1 < (((0 : ℚ) :: [2, 4])).length →
      0 ≤ (fun _ : List ℚ => (2 : ℚ)) ((0 : ℚ) :: [2, 4]) ∧
      ((fun _ : List ℚ => (2 : ℚ)) ((0 : ℚ) :: [2, 4])) ^ 2 =
        besselVariance ((0 : ℚ) :: [2, 4]) := by
    intro _
    refine ⟨by norm_num, ?_⟩
    norm_num [besselVariance]
  have h := time_stats_fields (fun _ => 2) 0 [2, 4] hst
  exact ⟨h.2.2.2.2.1, (h.2.2.2.2.2.2.1 (by norm_num)).2⟩

/-! ## Claim C9 -/

/-- The sample list currently held at a key of `checkpoint_times` (empty when
the key is absent). -/
def lookupSamples (q : String) (m : List (String × List Sample)) :
    List Sample :=
  (dictLookup q m).getD []

/-- Specification helper: the samples checkpoint name `q` contributes across
the records, in record order. -/
def specSamples (q : String) (execs : List Execution) : List Sample :=
  (execs.map (fun e => e.checkpoints.filterMap (fun p =>
    if p.1 = q then p.2.map (fun d =>
      Sample.mk d.time_since_last d.total_elapsed e.task_id d.timestamp)
    else none))).flatten

theorem lookupSamples_addSample (n q : String) (s : Sample)
    (m : List (String × List Sample)) :
    lookupSamples q (addSample n s m) =
      if n = q then lookupSamples q m ++ [s] else lookupSamples q m := by
  induction m with
  | nil =>
      by_cases h : n = q <;> simp [addSample, lookupSamples, dictLookup, h]
  | cons p rest ih =>
      obtain ⟨k, vs⟩ := p
      by_cases hkn : k = n
      · subst hkn
        by_cases hkq : k = q
        · subst hkq
          simp [addSample, lookupSamples, dictLookup]
        · simp [addSample, lookupSamples, dictLookup, hkq]
      · by_cases hkq : k = q
        · subst hkq
          have hnq : ¬ n = k := fun h => hkn h.symm
          simp [addSample, lookupSamples, dictLookup, hkn, hnq]
        · simp only [addSample, if_neg hkn, lookupSamples, dictLookup,
            if_neg hkq]
          exact ih

theorem dictKeys_addSample (n : String) (s : Sample)
    (m : List (String × List Sample)) :
    dictKeys (addSample n s m) =
      if n ∈ dictKeys m then dictKeys m else dictKeys m ++ [n] := by
  induction m with
  | nil => simp [addSample, dictKeys]
  | cons p rest ih =>
      obtain ⟨k, vs⟩ := p
      by_cases hkn : k = n
      · subst hkn
        simp [addSample, dictKeys]
      · have hne : ¬ n = k := fun h => hkn h.symm
        simp only [addSample, if_neg hkn, dictKeys, List.map_cons] at ih ⊢
        rw [ih]
        by_cases hm : n ∈ List.map Prod.fst rest
        · simp [List.mem_cons, hm, hne]
        · simp [List.mem_cons, hm, hne]

theorem mem_dictKeys_addSample (n q : String) (s : Sample)
    (m : List (String × List Sample)) :
    q ∈ dictKeys (addSample n s m) ↔ q ∈ dictKeys m ∨ q = n := by
  rw [dictKeys_addSample]
  by_cases hm : n ∈ dictKeys m
  · simp only [hm, if_true]
    constructor
    · exact fun h => Or.inl h
    · rintro (h | rfl)
      · exact h
      · exact hm
  · simp [hm, or_comm]

theorem nodup_dictKeys_addSample (n : String) (s : Sample)
    (m : List (String × List Sample)) (h : (dictKeys m).Nodup) :
    (dictKeys (addSample n s m)).Nodup := by
  rw [dictKeys_addSample]
  by_cases hm : n ∈ dictKeys m
  · simpa [hm] using h
  · simpa [hm, List.nodup_append] using h

theorem values_ne_nil_addSample (n : String) (s : Sample)
    (m : List (String × List Sample)) (h : ∀ p ∈ m, p.2 ≠ []) :
    ∀ p ∈ addSample n s m, p.2 ≠ [] := by
  induction m with
  | nil =>
      intro p hp
      rcases List.mem_singleton.mp hp with rfl
      simp
  | cons q rest ih =>
      obtain ⟨k, vs⟩ := q
      by_cases hkn : k = n
      · subst hkn
        intro p hp
        rw [addSample, if_pos rfl] at hp
        rcases List.mem_cons.mp hp with h1 | h1
        · rw [h1]; simp
        · exact h p (List.mem_cons_of_mem _ h1)
      · intro p hp
        simp only [addSample, if_neg hkn] at hp
        rcases List.mem_cons.mp hp with h1 | h1
        · rw [h1]; exact h (k, vs) (List.mem_cons_self _ _)
        · exact ih (fun r hr => h r (List.mem_cons_of_mem _ hr)) p h1

/-- The per-record filter describing what `collectCps` appends for key `q`. -/
def cpFilter (task_id q : String) (ps : List (String × Option CpData)) :
    List Sample :=
  ps.filterMap (fun p =>
    if p.1 = q then p.2.map (fun d =>
      Sample.mk d.time_since_last d.total_elapsed task_id d.timestamp)
    else none)

theorem lookupSamples_collectCps (task_id q : String)
    (ps : List (String × Option CpData)) (m : List (String × List Sample)) :
    lookupSamples q (collectCps task_id m ps) =
      lookupSamples q m ++ cpFilter task_id q ps := by
  induction ps generalizing m with
  | nil => simp [collectCps, cpFilter]
  | cons p ps ih =>
      obtain ⟨n, od⟩ := p
      cases od with
      | none =>
          simp only [collectCps, ih, cpFilter, List.filterMap_cons]
          by_cases h : n = q <;> simp [h, cpFilter]
      | some d =>
          simp only [collectCps, ih, lookupSamples_addSample, cpFilter,
            List.filterMap_cons]
          by_cases h : n = q
          · simp [h, cpFilter]
          · simp [h, cpFilter]

theorem mem_dictKeys_collectCps (task_id q : String)
    (ps : List (String × Option CpData)) (m : List (String × List Sample)) :
    q ∈ dictKeys (collectCps task_id m ps) ↔
      q ∈ dictKeys m ∨ ∃ p ∈ ps, p.1 = q ∧ p.2.isSome := by
  induction ps generalizing m with
  | nil => simp [collectCps]
  | cons p ps ih =>
      obtain ⟨n, od⟩ := p
      cases od with
      | none =>
          simp only [collectCps, ih, List.mem_cons]
          constructor
          · rintro (h | h)
            · exact Or.inl h
            · exact Or.inr (by
                obtain ⟨r, hr, h1, h2⟩ := h
                exact ⟨r, Or.inr hr, h1, h2⟩)
          · rintro (h | ⟨r, hr | hr, h1, h2⟩)
            · exact Or.inl h
            · rw [hr] at h2; simp at h2
            · exact Or.inr ⟨r, hr, h1, h2⟩
      | some d =>
          simp only [collectCps, ih, mem_dictKeys_addSample, List.mem_cons]
          constructor
          · rintro ((h | h) | h)
            · exact Or.inl h
            · exact Or.inr ⟨(n, some d), Or.inl rfl, h.symm, rfl⟩
            · obtain ⟨r, hr, h1, h2⟩ := h
              exact Or.inr ⟨r, Or.inr hr, h1, h2⟩
          · rintro (h | ⟨r, hr | hr, h1, h2⟩)
            · exact Or.inl (Or.inl h)
            · rw [hr] at h1
              exact Or.inl (Or.inr h1.symm)
            · exact Or.inr ⟨r, hr, h1, h2⟩

theorem nodup_dictKeys_collectCps (task_id : String)
    (ps : List (String × Option CpData)) (m : List (String × List Sample))
    (h : (dictKeys m).Nodup) :
    (dictKeys (collectCps task_id m ps)).Nodup := by
  induction ps generalizing m with
  | nil => exact h
  | cons p ps ih =>
      obtain ⟨n, od⟩ := p
      cases od with
      | none => exact ih _ h
      | some d => exact ih _ (nodup_dictKeys_addSample n _ m h)

theorem values_ne_nil_collectCps (task_id : String)
    (ps : List (String × Option CpData)) (m : List (String × List Sample))
    (h : ∀ p ∈ m, p.2 ≠ []) :
    ∀ p ∈ collectCps task_id m ps, p.2 ≠ [] := by
  induction ps generalizing m with
  | nil => exact h
  | cons p ps ih =>
      obtain ⟨n, od⟩ := p
      cases od with
      | none => exact ih _ h
      | some d => exact ih _ (values_ne_nil_addSample n _ m h)

theorem lookupSamples_collectRuns (q : String) (es : List Execution)
    (m : List (String × List Sample)) :
    lookupSamples q (collectRuns m es) = lookupSamples q m ++ specSamples q es := by
  induction es generalizing m with
  | nil => simp [collectRuns, specSamples]
  | cons e es ih =>
      simp only [collectRuns, collectExec, ih, lookupSamples_collectCps,
        specSamples, List.map_cons, List.flatten_cons, List.append_assoc]
      rfl

theorem mem_dictKeys_collectRuns (q : String) (es : List Execution)
    (m : List (String × List Sample)) :
    q ∈ dictKeys (collectRuns m es) ↔
      q ∈ dictKeys m ∨ ∃ e ∈ es, ∃ p ∈ e.checkpoints, p.1 = q ∧ p.2.isSome := by
  induction es generalizing m with
  | nil => simp [collectRuns]
  | cons e es ih =>
      simp only [collectRuns, collectExec, ih, mem_dictKeys_collectCps,
        List.mem_cons]
      constructor
      · rintro ((h | h) | h)
        · exact Or.inl h
        · obtain ⟨r, hr, h1, h2⟩ := h
          exact Or.inr ⟨e, Or.inl rfl, r, hr, h1, h2⟩
        · obtain ⟨f, hf, r, hr, h1, h2⟩ := h
          exact Or.inr ⟨f, Or.inr hf, r, hr, h1, h2⟩
      · rintro (h | ⟨f, hf | hf, r, hr, h1, h2⟩)
        · exact Or.inl (Or.inl h)
        · exact Or.inl (Or.inr ⟨r, hf ▸ hr, h1, h2⟩)
        · exact Or.inr ⟨f, hf, r, hr, h1, h2⟩

theorem nodup_dictKeys_collectRuns (es : List Execution)
    (m : List (String × List Sample)) (h : (dictKeys m).Nodup) :
    (dictKeys (collectRuns m es)).Nodup := by
  induction es generalizing m with
  | nil => exact h
  | cons e es ih => exact ih _ (nodup_dictKeys_collectCps _ _ _ h)

theorem values_ne_nil_collectRuns (es : List Execution)
    (m : List (String × List Sample)) (h : ∀ p ∈ m, p.2 ≠ []) :
    ∀ p ∈ collectRuns m es, p.2 ≠ [] := by
  induction es generalizing m with
  | nil => exact h
  | cons e es ih => exact ih _ (values_ne_nil_collectCps _ _ _ h)

/-- In a key-nodup association list, a member pair is what lookup finds. -/
theorem dictLookup_of_mem_nodup {α : Type} (k : String) (v : α)
    (m : List (String × α)) (hm : (k, v) ∈ m) (hnd : (dictKeys m).Nodup) :
    dictLookup k m = some v := by
  induction m with
  | nil => simp at hm
  | cons p rest ih =>
      obtain ⟨k0, v0⟩ := p
      simp only [dictKeys, List.map_cons, List.nodup_cons] at hnd
      rcases List.mem_cons.mp hm with heq | hmem
      · obtain ⟨h1, h2⟩ := Prod.mk.injEq .. ▸ heq.symm
        simp [dictLookup, h1.symm, h2]
      · have hk0 : ¬ k0 = k := by
          intro h
          subst h
          exact hnd.1 (List.mem_map_of_mem Prod.fst hmem)
        simp only [dictLookup, if_neg hk0]
        exact ih hmem hnd.2

theorem meanOrZero_calculate_time_stats (stdev : List ℚ → ℚ) (ys : List ℚ)
    (h : ys ≠ []) :
    (calculate_time_stats stdev ys).meanOrZero =
      ys.sum / ((ys.length : ℚ)) := by
  cases ys with
  | nil => exact absurd rfl h
  | cons y ys => rfl

/-- C9: for every non-empty record list, `checkpoints_summary` lists every
checkpoint name that contributed at least one well-formed sample exactly
once, sorted in ascending order of the entries' mean cumulative time, and
each entry's `avg_total_elapsed` is the arithmetic mean of that checkpoint's
`total_elapsed` samples across all records. -/
theorem checkpoints_summary_ranking (stdev : List ℚ → ℚ) (e0 : Execution)
    (es : List Execution) :
    (((calculate_parallel_statistics stdev (e0 :: es)).checkpoints_summary.map
        SummaryEntry.name).Nodup) ∧
    (∀ q : String,
      q ∈ (calculate_parallel_statistics stdev
            (e0 :: es)).checkpoints_summary.map SummaryEntry.name ↔
        ∃ e ∈ e0 :: es, ∃ r ∈ e.checkpoints, r.1 = q ∧ r.2.isSome) ∧
    ((calculate_parallel_statistics stdev
        (e0 :: es)).checkpoints_summary.Pairwise
      (fun a b => a.avg_total_elapsed ≤ b.avg_total_elapsed)) ∧
    (∀ ent ∈ (calculate_parallel_statistics stdev
        (e0 :: es)).checkpoints_summary,
      ent.avg_total_elapsed =
        ((specSamples ent.name (e0 :: es)).map (fun v => v.total_elapsed)).sum /
          (((specSamples ent.name (e0 :: es)).length : ℚ))) := by
  have hdef : (calculate_parallel_statistics stdev (e0 :: es)).checkpoints_summary =
      ((collectSamples (e0 :: es)).map (fun p =>
        SummaryEntry.mk p.1
          (calculate_time_stats stdev
            (p.2.map (fun v => v.time_since_last))).meanOrZero
          (calculate_time_stats stdev
            (p.2.map (fun v => v.total_elapsed))).meanOrZero
          p.2.length)).mergeSort
        (fun a b => a.avg_total_elapsed ≤ b.avg_total_elapsed) := rfl
  have hperm := List.mergeSort_perm
    ((collectSamples (e0 :: es)).map (fun p =>
      SummaryEntry.mk p.1
        (calculate_time_stats stdev
          (p.2.map (fun v => v.time_since_last))).meanOrZero
        (calculate_time_stats stdev
          (p.2.map (fun v => v.total_elapsed))).meanOrZero
        p.2.length))
    (fun a b => a.avg_total_elapsed ≤ b.avg_total_elapsed)
  have hnames : ((collectSamples (e0 :: es)).map (fun p =>
      SummaryEntry.mk p.1
        (calculate_time_stats stdev
          (p.2.map (fun v => v.time_since_last))).meanOrZero
        (calculate_time_stats stdev
          (p.2.map (fun v => v.total_elapsed))).meanOrZero
        p.2.length)).map SummaryEntry.name =
      dictKeys (collectSamples (e0 :: es)) := by
    rw [List.map_map]
    rfl
  have hnodup_ct : (dictKeys (collectSamples (e0 :: es))).Nodup :=
    nodup_dictKeys_collectRuns (e0 :: es) [] (by simp [dictKeys])
  have hmemkeys : ∀ q : String,
      q ∈ dictKeys (collectSamples (e0 :: es)) ↔
        ∃ e ∈ e0 :: es, ∃ r ∈ e.checkpoints, r.1 = q ∧ r.2.isSome := by
    intro q
    show q ∈ dictKeys (collectRuns [] (e0 :: es)) ↔ _
    rw [mem_dictKeys_collectRuns]
    simp [dictKeys]
  refine ⟨?_, ?_, ?_, ?_⟩
  · rw [hdef]
    exact ((hperm.map SummaryEntry.name).nodup_iff).mpr (hnames ▸ hnodup_ct)
  · intro q
    rw [hdef, (hperm.map SummaryEntry.name).mem_iff, hnames]
    exact hmemkeys q
  · rw [hdef]
    have hpair : (((collectSamples (e0 :: es)).map (fun p =>
        SummaryEntry.mk p.1
          (calculate_time_stats stdev
            (p.2.map (fun v => v.time_since_last))).meanOrZero
          (calculate_time_stats stdev
            (p.2.map (fun v => v.total_elapsed))).meanOrZero
          p.2.length)).mergeSort
          (fun a b => a.avg_total_elapsed ≤ b.avg_total_elapsed)).Pairwise
        (fun a b =>
          decide (a.avg_total_elapsed ≤ b.avg_total_elapsed) = true) := by
      apply List.sorted_mergeSort
      · intro a b c h1 h2
        simp only [decide_eq_true_eq] at h1 h2 ⊢
        exact le_trans h1 h2
      · intro a b
        simp only [Bool.or_eq_true, decide_eq_true_eq]
        exact le_total a.avg_total_elapsed b.avg_total_elapsed
    exact hpair.imp (fun h => of_decide_eq_true h)
  · intro ent hent
    rw [hdef] at hent
    have hmem := List.mem_mergeSort.mp hent
    obtain ⟨p, hp, hfp⟩ := List.mem_map.mp hmem
    have hlookup : dictLookup p.1 (collectSamples (e0 :: es)) = some p.2 :=
      dictLookup_of_mem_nodup p.1 p.2 _ (by simpa using hp) hnodup_ct
    have hsamp : p.2 = specSamples p.1 (e0 :: es) := by
      have h1 : lookupSamples p.1 (collectSamples (e0 :: es)) =
          specSamples p.1 (e0 :: es) := by
        show lookupSamples p.1 (collectRuns [] (e0 :: es)) = _
        rw [lookupSamples_collectRuns]
        simp [lookupSamples, dictLookup]
      rw [← h1, lookupSamples, hlookup]
      rfl
    have hne : p.2 ≠ [] :=
      values_ne_nil_collectRuns (e0 :: es) [] (by simp) p hp
    have hname : ent.name = p.1 := by rw [← hfp]
    have havg : ent.avg_total_elapsed =
        (calculate_time_stats stdev
          (p.2.map (fun v => v.total_elapsed))).meanOrZero := by
      rw [← hfp]
    rw [havg, meanOrZero_calculate_time_stats _ _
      (fun hcon => hne (by simpa using hcon)), hname, ← hsamp,
      List.length_map]

/-- Witness for C9: a single record with one checkpoint "a" puts "a" into
the ranked summary. -/
theorem checkpoints_summary_ranking_witness :
    "a" ∈ (calculate_parallel_statistics (fun _ => 0)
        [⟨"test", "task", "ts", 10, [("a", some ⟨1, 1, "t1"⟩)]⟩]).checkpoints_summary.map
      SummaryEntry.name :=
  ((checkpoints_summary_ranking (fun _ => 0)
      ⟨"test", "task", "ts", 10, [("a", some ⟨1, 1, "t1"⟩)]⟩ []).2.1 "a").mpr
    ⟨⟨"test", "task", "ts", 10, [("a", some ⟨1, 1, "t1"⟩)]⟩,
      List.mem_singleton_self _,
      ("a", some ⟨1, 1, "t1"⟩), List.mem_singleton_self _, rfl, rfl⟩

/-! ## Claim C6 -/

theorem length_padDigits (w n : ℕ) : (padDigits w n).length = w := by
  induction w generalizing n with
  | zero => rfl
  | succ w ih => simp [padDigits, ih]

/-- Read a digit string back as a number (decimal accumulator). -/
def digitsToNat : List Char → ℕ → ℕ
  | [], acc => acc
  | c :: cs, acc => digitsToNat cs (acc * 10 + (c.toNat - 48))

theorem digitsToNat_append (xs ys : List Char) (acc : ℕ) :
    digitsToNat (xs ++ ys) acc = digitsToNat ys (digitsToNat xs acc) := by
  induction xs generalizing acc with
  | nil => rfl
  | cons c cs ih => simp [digitsToNat, ih]

theorem digitChar_toNat_sub (d : ℕ) (h : d < 10) :
    (Nat.digitChar d).toNat - 48 = d := by
  interval_cases d <;> rfl

theorem digitsToNat_padDigits (w n acc : ℕ) :
    digitsToNat (padDigits w n) acc = acc * 10 ^ w + n % 10 ^ w := by
  induction w generalizing n acc with
  | zero => simp [padDigits, digitsToNat, Nat.mod_one]
  | succ w ih =>
      rw [padDigits, digitsToNat_append, ih]
      show digitsToNat [Nat.digitChar (n % 10)] _ = _
      simp only [digitsToNat]
      rw [digitChar_toNat_sub (n % 10) (Nat.mod_lt n (by norm_num))]
      rw [pow_succ' (10 : ℕ) w, Nat.mod_mul]
      ring

theorem padDigits_inj (w n1 n2 : ℕ) (h1 : n1 < 10 ^ w) (h2 : n2 < 10 ^ w)
    (heq : padDigits w n1 = padDigits w n2) : n1 = n2 := by
  have e1 := digitsToNat_padDigits w n1 0
  have e2 := digitsToNat_padDigits w n2 0
  rw [heq, e2] at e1
  simpa [Nat.mod_eq_of_lt h1, Nat.mod_eq_of_lt h2] using e1.symm

theorem take_three_padDigits_six (n : ℕ) :
    (padDigits 6 n).take 3 = padDigits 3 (n / 1000) := by
  simp [padDigits, Nat.div_div_eq_div_mul]

/-- The truncated timestamp, decomposed: the `[:-3]` slice keeps the date and
time-of-day fields intact and reduces the microsecond field to its first
three digits, i.e. to milliseconds (`microsecond / 1000`). -/
theorem timestampMillis_eq (dt : UtcTime) :
    timestampMillis dt =
      (padDigits 4 dt.year ++ padDigits 2 dt.month ++ padDigits 2 dt.day ++
       ['_'] ++ padDigits 2 dt.hour ++ padDigits 2 dt.minute ++
       padDigits 2 dt.second ++ ['_']) ++ padDigits 3 (dt.microsecond / 1000) := by
  have hsplit : strftimeFull dt =
      (padDigits 4 dt.year ++ padDigits 2 dt.month ++ padDigits 2 dt.day ++
       ['_'] ++ padDigits 2 dt.hour ++ padDigits 2 dt.minute ++
       padDigits 2 dt.second ++ ['_']) ++ padDigits 6 dt.microsecond := by
    simp [strftimeFull, List.append_assoc]
  have hplen : (padDigits 4 dt.year ++ padDigits 2 dt.month ++
      padDigits 2 dt.day ++ ['_'] ++ padDigits 2 dt.hour ++
      padDigits 2 dt.minute ++ padDigits 2 dt.second ++ ['_']).length = 16 := by
    simp [length_padDigits]
  have hlen : (strftimeFull dt).length = 22 := by
    rw [hsplit]
    simp [hplen, length_padDigits]
  rw [timestampMillis, hlen, hsplit]
  show List.take 19 _ = _
  rw [List.take_append_eq_append_take,
    List.take_of_length_le (by rw [hplen]; norm_num), hplen]
  norm_num [take_three_padDigits_six]

theorem length_timestampMillis (dt : UtcTime) :
    (timestampMillis dt).length = 19 := by
  rw [timestampMillis_eq]
  simp [length_padDigits]

/-- The millisecond-resolution key a record filename actually encodes. -/
def msKey (dt : UtcTime) : ℕ × ℕ × ℕ × ℕ × ℕ × ℕ × ℕ :=
  (dt.year, dt.month, dt.day, dt.hour, dt.minute, dt.second,
   dt.microsecond / 1000)

/-- The field ranges `datetime` guarantees (stated as the bounds the
fixed-width rendering needs). -/
def UtcTime.InRange (dt : UtcTime) : Prop :=
  dt.year < 10000 ∧ dt.month < 100 ∧ dt.day < 100 ∧ dt.hour < 100 ∧
  dt.minute < 100 ∧ dt.second < 100 ∧ dt.microsecond < 1000000

/-- C6 (amended): record filenames follow
`execution_<task_id>_<timestamp>.json` where the timestamp has
millisecond (not sub-millisecond) resolution; two filenames can only
coincide when both the task identities and the millisecond-truncated
instants coincide — so distinct task ids, or instants in distinct
milliseconds, never overwrite each other. -/
theorem logFilename_determines (t1 t2 : String) (dt1 dt2 : UtcTime)
    (h1 : dt1.InRange) (h2 : dt2.InRange)
    (heq : logFilename t1 dt1 = logFilename t2 dt2) :
    t1 = t2 ∧ msKey dt1 = msKey dt2 := by
  obtain ⟨hy1, hmo1, hd1, hh1, hmi1, hs1, hus1⟩ := h1
  obtain ⟨hy2, hmo2, hd2, hh2, hmi2, hs2, hus2⟩ := h2
  rw [logFilename, logFilename] at heq
  have heq2 : t1.data ++ (['_'] ++ (timestampMillis dt1 ++ ".json".data)) =
      t2.data ++ (['_'] ++ (timestampMillis dt2 ++ ".json".data)) := by
    have h0 : "execution_".data ++
        (t1.data ++ (['_'] ++ (timestampMillis dt1 ++ ".json".data))) =
        "execution_".data ++
        (t2.data ++ (['_'] ++ (timestampMillis dt2 ++ ".json".data))) := by
      simpa [List.append_assoc] using heq
    exact List.append_cancel_left h0
  have hsuffix : (['_'] ++ (timestampMillis dt1 ++ ".json".data)).length =
      (['_'] ++ (timestampMillis dt2 ++ ".json".data)).length := by
    simp [length_timestampMillis]
  obtain ⟨htask, heq3⟩ := List.append_inj' heq2 hsuffix
  have hts : timestampMillis dt1 = timestampMillis dt2 := by
    have h3 := List.append_cancel_left heq3
    exact List.append_cancel_right h3
  refine ⟨String.ext htask, ?_⟩
  rw [timestampMillis_eq, timestampMillis_eq] at hts
  simp only [List.append_assoc] at hts
  obtain ⟨hy, hts⟩ := List.append_inj hts (by simp [length_padDigits])
  obtain ⟨hmo, hts⟩ := List.append_inj hts (by simp [length_padDigits])
  obtain ⟨hd, hts⟩ := List.append_inj hts (by simp [length_padDigits])
  obtain ⟨-, hts⟩ := List.append_inj hts (by simp)
  obtain ⟨hh, hts⟩ := List.append_inj hts (by simp [length_padDigits])
  obtain ⟨hmi, hts⟩ := List.append_inj hts (by simp [length_padDigits])
  obtain ⟨hs, hts⟩ := List.append_inj hts (by simp [length_padDigits])
  obtain ⟨-, hus⟩ := List.append_inj hts (by simp)
  have hms : dt1.microsecond / 1000 < 10 ^ 3 := by
    rw [Nat.div_lt_iff_lt_mul (by norm_num)]
    calc dt1.microsecond < 1000000 := hus1
      _ = 10 ^ 3 * 1000 := by norm_num
  have hms2 : dt2.microsecond / 1000 < 10 ^ 3 := by
    rw [Nat.div_lt_iff_lt_mul (by norm_num)]
    calc dt2.microsecond < 1000000 := hus2
      _ = 10 ^ 3 * 1000 := by norm_num
  have hyv : dt1.year = dt2.year :=
    padDigits_inj 4 _ _ (by norm_num [hy1]) (by norm_num [hy2]) hy
  have hmov : dt1.month = dt2.month :=
    padDigits_inj 2 _ _ (by norm_num [hmo1]) (by norm_num [hmo2]) hmo
  have hdv : dt1.day = dt2.day :=
    padDigits_inj 2 _ _ (by norm_num [hd1]) (by norm_num [hd2]) hd
  have hhv : dt1.hour = dt2.hour :=
    padDigits_inj 2 _ _ (by norm_num [hh1]) (by norm_num [hh2]) hh
  have hmiv : dt1.minute = dt2.minute :=
    padDigits_inj 2 _ _ (by norm_num [hmi1]) (by norm_num [hmi2]) hmi
  have hsv : dt1.second = dt2.second :=
    padDigits_inj 2 _ _ (by norm_num [hs1]) (by norm_num [hs2]) hs
  have husv : dt1.microsecond / 1000 = dt2.microsecond / 1000 :=
    padDigits_inj 3 _ _ hms hms2 hus
  rw [msKey, msKey, hyv, hmov, hdv, hhv, hmiv, hsv, husv]

/-- C6 counterexample: two runs of the same task finishing at distinct
instants within the same millisecond (microsecond 0 versus 500) receive the
SAME filename — the `[:-3]` slice discards the sub-millisecond digits, so
the timestamp does not have sub-millisecond resolution, and distinct
sub-millisecond instants can collide (and overwrite). -/
theorem logFilename_collision :
    (⟨2026, 1, 2, 3, 4, 5, 0⟩ : UtcTime) ≠ ⟨2026, 1, 2, 3, 4, 5, 500⟩ ∧
    logFilename "task" ⟨2026, 1, 2, 3, 4, 5, 0⟩ =
      logFilename "task" ⟨2026, 1, 2, 3, 4, 5, 500⟩ := by
  constructor
  · intro h
    have := congrArg UtcTime.microsecond h
    simp at this
  · rfl

/-- Witness for C6 applying the amended theorem at concrete equal
filenames. -/
theorem logFilename_determines_witness :
    ("tsk" : String) = "tsk" ∧
      msKey ⟨2026, 1, 2, 3, 4, 5, 123456⟩ = msKey ⟨2026, 1, 2, 3, 4, 5, 123456⟩ :=
  logFilename_determines "tsk" "tsk" ⟨2026, 1, 2, 3, 4, 5, 123456⟩
    ⟨2026, 1, 2, 3, 4, 5, 123456⟩
    (by refine ⟨?_, ?_, ?_, ?_, ?_, ?_, ?_⟩ <;> norm_num)
    (by refine ⟨?_, ?_, ?_, ?_, ?_, ?_, ?_⟩ <;> norm_num)
    rfl

end SeleniumPractice
